import Mathlib

/-!
# Verification of the `Radiating` emission-model hierarchy

Shallow embedding of the notebook `3.synchrotron.ipynb` of the repository
`rndsrc/blackholes`: an abstract base class `Radiating` holding the fluid
state `(rho, T, B, cos, Z)` with a concrete Planck function `Bnu`, two
abstract emissivity hooks `jnu_bremss` and `jnu_sync`, and a concrete
subclass `RL` implementing the bremsstrahlung emissivity.  Floating-point
numbers are modelled as real numbers, numpy arrays as lists mapped
elementwise, Python `None` (the value of a `pass` body) as `Option.none`.
-/

/-! ## Physical constants (astropy CODATA values, cgs units) -/

/-- Planck constant `c.h` in erg s. -/
def h : ℝ := 6.62607015e-27

/-- Boltzmann constant `c.k_B` in erg / K. -/
def k_B : ℝ := 1.380649e-16

/-- Speed of light `c.c` in cm / s. -/
def c : ℝ := 2.99792458e10

/-- Electron mass `c.m_e` in g. -/
def m_e : ℝ := 9.1093837015e-28

/-- Proton mass `c.m_p` in g. -/
def m_p : ℝ := 1.67262192369e-24

/-- Elementary charge `c.e.gauss` in statC. -/
def e_gauss : ℝ := 4.80320425e-10

theorem h_pos : 0 < h := by unfold h; norm_num

theorem k_B_pos : 0 < k_B := by unfold k_B; norm_num

theorem c_pos : 0 < c := by unfold c; norm_num

theorem m_e_pos : 0 < m_e := by unfold m_e; norm_num

theorem m_p_pos : 0 < m_p := by unfold m_p; norm_num

theorem e_gauss_pos : 0 < e_gauss := by unfold e_gauss; norm_num

/-! ## The fluid state (`Radiating.__init__`) -/

/-- The attributes set by `Radiating.__init__`:
`self.rho`, `self.T`, `self.B`, `self.cos`, `self.Z`. -/
structure Radiating where
  rho : ℝ
  T : ℝ
  B : ℝ
  cos : ℝ
  Z : ℝ

/-- `Radiating.__init__(self, rho, T, cos_theta, B, Z=1)`: stores
`self.rho = rho; self.T = T; self.B = B; self.cos = cos_theta; self.Z = Z`
(the notebook calls it with `Z` left at its default `1`). -/
def Radiating.init (rho T cos_theta B Z : ℝ) : Radiating :=
  ⟨rho, T, B, cos_theta, Z⟩

/-! ## `Radiating.Bnu` (Planck function), from the source:

```
def Bnu(self, nu):
    x = (c.h * nu) / (c.k_B * self.T)
    f = 2 * c.h * (nu * nu * nu) / (c.c * c.c)
    return f / (np.exp(x) - 1)
```
-/

/-- The numerator `f = 2 * c.h * (nu * nu * nu) / (c.c * c.c)` of `Bnu`. -/
noncomputable def Radiating.Bnu_num (_m : Radiating) (nu : ℝ) : ℝ :=
  2 * h * (nu * nu * nu) / (c * c)

/-- The denominator `np.exp(x) - 1` of `Bnu`,
with `x = (c.h * nu) / (c.k_B * self.T)`. -/
noncomputable def Radiating.Bnu_den (m : Radiating) (nu : ℝ) : ℝ :=
  Real.exp ((h * nu) / (k_B * m.T)) - 1

/-- `Radiating.Bnu`: the Planck function as the source computes it,
`f / (np.exp(x) - 1)`. -/
noncomputable def Radiating.Bnu (m : Radiating) (nu : ℝ) : ℝ :=
  m.Bnu_num nu / m.Bnu_den nu

theorem Radiating.Bnu_def (m : Radiating) (nu : ℝ) :
    m.Bnu nu = 2 * h * (nu * nu * nu) / (c * c) /
      (Real.exp ((h * nu) / (k_B * m.T)) - 1) := rfl

/-- `Bnu` applied to an array of frequencies: numpy broadcasts the scalar
attributes and applies `np.exp` elementwise, so the array result is the
elementwise map of the scalar formula. -/
noncomputable def Radiating.BnuArr (m : Radiating) (nus : List ℝ) : List ℝ :=
  nus.map m.Bnu

/-! ## `RL` (Rybicki–Lightman formulation), from the source:

```
class RL(Radiating):
    def jnu_bremss(self, nu):
        f = (32 * pi * c.e.gauss**6) / (3 * c.m_e * c.c**3) * np.sqrt(2 * pi / (3 * c.k_B * c.m_e))
        ne = self.rho / (c.m_e + c.m_p)
        ni = ne
        return f * np.sqrt(self.T) * self.Z * self.Z * ne * ni * np.exp(- c.h * nu / (c.k_B * self.T))

    def jnu_sync(self, nu):
        pass
```
-/

/-- `RL.jnu_bremss`: thermal bremsstrahlung emissivity at one frequency. -/
noncomputable def RL.jnu_bremss (m : Radiating) (nu : ℝ) : ℝ :=
  let f := (32 * Real.pi * e_gauss ^ 6) / (3 * m_e * c ^ 3) *
    Real.sqrt (2 * Real.pi / (3 * k_B * m_e))
  let ne := m.rho / (m_e + m_p)
  let ni := ne
  f * Real.sqrt m.T * m.Z * m.Z * ne * ni *
    Real.exp (-(h * nu) / (k_B * m.T))

/-- `RL.jnu_bremss` on an array of frequencies, elementwise. -/
noncomputable def RL.jnu_bremssArr (m : Radiating) (nus : List ℝ) : List ℝ :=
  nus.map (RL.jnu_bremss m)

/-- `RL.jnu_sync`: the body is `pass`, so the call returns Python `None`
whatever the frequency argument is (scalar or array). -/
def RL.jnu_sync {α β : Type} (_m : Radiating) (_nu : α) : Option β :=
  none

/-! ## Spec-side definitions (written from the specification's words,
to be compared with the source-side definitions above). -/

/-- Modelled from the spec:
`emissivity = K · e⁶ · T^(1/2) · Z² · nₑ · nᵢ · exp(−h·ν / (k_B·T))` with
`K = (32π)/(3·mₑ·c³) · sqrt(2π/(3·k_B·mₑ))`, `nₑ = ρ/(mₑ+m_p)`, `nᵢ = nₑ`. -/
noncomputable def bremsstrahlung_emissivity_spec (rho T Z nu : ℝ) : ℝ :=
  let K := (32 * Real.pi) / (3 * m_e * c ^ 3) *
    Real.sqrt (2 * Real.pi / (3 * k_B * m_e))
  let n_e := rho / (m_e + m_p)
  let n_i := n_e
  K * e_gauss ^ 6 * T ^ ((1 : ℝ) / 2) * Z ^ 2 * n_e * n_i *
    Real.exp (-(h * nu) / (k_B * T))

/-- Modelled from the spec:
`B_ν = (2·h·ν³/c²) / (exp(h·ν/(k_B·T)) − 1)`. -/
noncomputable def planck_radiance_spec (T nu : ℝ) : ℝ :=
  (2 * h * nu ^ 3 / c ^ 2) / (Real.exp (h * nu / (k_B * T)) - 1)

/-! ## Claims C1 and C2: the closed-form formulas -/

/-- C1: for every model built with density `rho`, temperature `T > 0` and
charge number `Z`, `RL.jnu_bremss` returns exactly
`K · e⁶ · T^(1/2) · Z² · nₑ · nᵢ · exp(−h·ν/(k_B·T))` with
`K = (32π)/(3·mₑ·c³)·sqrt(2π/(3·k_B·mₑ))` and `nₑ = nᵢ = ρ/(mₑ+m_p)`,
elementwise over an array of frequencies, and the output array has the
same shape (length) as the frequency input. -/
theorem C1_bremss_formula (rho T B cos_theta Z : ℝ) (hT : 0 < T) :
    (∀ nu : ℝ, RL.jnu_bremss (Radiating.init rho T cos_theta B Z) nu =
      bremsstrahlung_emissivity_spec rho T Z nu) ∧
    (∀ nus : List ℝ,
      RL.jnu_bremssArr (Radiating.init rho T cos_theta B Z) nus =
        nus.map (bremsstrahlung_emissivity_spec rho T Z) ∧
      (RL.jnu_bremssArr (Radiating.init rho T cos_theta B Z) nus).length =
        nus.length) := by
  have key : ∀ nu : ℝ, RL.jnu_bremss (Radiating.init rho T cos_theta B Z) nu =
      bremsstrahlung_emissivity_spec rho T Z nu := by
    intro nu
    unfold RL.jnu_bremss bremsstrahlung_emissivity_spec Radiating.init
    simp only
    rw [← Real.sqrt_eq_rpow]
    ring
  refine ⟨key, fun nus => ⟨?_, ?_⟩⟩
  · unfold RL.jnu_bremssArr
    exact List.map_congr_left fun nu _ => key nu
  · unfold RL.jnu_bremssArr
    exact List.length_map nus _

theorem C1_bremss_formula_witness :
    (0 : ℝ) < 2 ∧
    (RL.jnu_bremss (Radiating.init 1 2 0 0 1) 5 =
      bremsstrahlung_emissivity_spec 1 2 1 5) := by
  refine ⟨by norm_num, ?_⟩
  exact (C1_bremss_formula 1 2 0 0 1 (by norm_num)).1 5

/-- C2: for every model with temperature `T > 0` and every frequency
`nu > 0`, `Radiating.Bnu` returns `(2·h·ν³/c²) / (exp(h·ν/(k_B·T)) − 1)`,
elementwise over an array of frequencies. -/
theorem C2_planck_formula (rho T B cos_theta Z : ℝ) (hT : 0 < T) :
    (∀ nu : ℝ, 0 < nu →
      Radiating.Bnu (Radiating.init rho T cos_theta B Z) nu =
        planck_radiance_spec T nu) ∧
    (∀ nus : List ℝ, (∀ nu ∈ nus, 0 < nu) →
      Radiating.BnuArr (Radiating.init rho T cos_theta B Z) nus =
        nus.map (planck_radiance_spec T)) := by
  have key : ∀ nu : ℝ,
      Radiating.Bnu (Radiating.init rho T cos_theta B Z) nu =
        planck_radiance_spec T nu := by
    intro nu
    unfold Radiating.Bnu Radiating.Bnu_num Radiating.Bnu_den
      planck_radiance_spec Radiating.init
    simp only
    congr 1
    · ring
  refine ⟨fun nu _ => key nu, fun nus _ => ?_⟩
  unfold Radiating.BnuArr
  exact List.map_congr_left fun nu _ => key nu

theorem C2_planck_formula_witness :
    (0 : ℝ) < 2 ∧ (0 : ℝ) < 3 ∧
    (Radiating.Bnu (Radiating.init 1 2 0 0 1) 3 = planck_radiance_spec 2 3) := by
  refine ⟨by norm_num, by norm_num, ?_⟩
  exact (C2_planck_formula 1 2 0 0 1 (by norm_num)).1 3 (by norm_num)

/-! ## Claim C3: the abstract-base-class mechanism

Python's `abc` machinery: a class records which of its `@abstractmethod`
declarations are still without a concrete body; `object.__new__` raises
`TypeError` at instantiation time when that set is non-empty, before any
method is ever called.  `Radiating` declares `jnu_bremss` and `jnu_sync`
abstract; `Dummy` and `RL` override both. -/

/-- The two method names declared `@abstractmethod` in `Radiating`. -/
inductive Method where
  | jnu_bremss
  | jnu_sync
deriving DecidableEq

/-- A class, recorded by its set of still-unimplemented abstract methods
(CPython's `__abstractmethods__`). -/
structure PyClass where
  abstracts : List Method

/-- The class `Radiating(ABC)`: both hooks are abstract and unimplemented. -/
def Radiating_cls : PyClass :=
  ⟨[Method.jnu_bremss, Method.jnu_sync]⟩

/-- Subclassing: the methods given concrete bodies by the subclass are
removed from the inherited set of unimplemented abstract methods. -/
def PyClass.subclass (parent : PyClass) (overrides : List Method) : PyClass :=
  ⟨parent.abstracts.filter (fun nm => decide (nm ∉ overrides))⟩

/-- The notebook's `Dummy(Radiating)`: overrides both hooks (with `pass`
bodies, which still count as concrete definitions for `abc`). -/
def Dummy_cls : PyClass :=
  Radiating_cls.subclass [Method.jnu_bremss, Method.jnu_sync]

/-- The notebook's `RL(Radiating)`: overrides both hooks. -/
def RL_cls : PyClass :=
  Radiating_cls.subclass [Method.jnu_bremss, Method.jnu_sync]

/-- A successfully constructed instance: its class plus the attribute
state set by `Radiating.__init__`. -/
structure PyInstance where
  cls : PyClass
  state : Radiating

/-- Instantiation `cls(rho, T, cos_theta, B, Z)`: raises `TypeError` right
away when any abstract method is unimplemented, otherwise runs `__init__`
and returns the instance. -/
def PyClass.instantiate (cl : PyClass) (rho T cos_theta B Z : ℝ) :
    Except String PyInstance :=
  if cl.abstracts.isEmpty then
    Except.ok ⟨cl, Radiating.init rho T cos_theta B Z⟩
  else
    Except.error "TypeError: cannot instantiate abstract class"

/-- C3: constructing the abstract contract `Radiating` directly fails at
instantiation time (a `TypeError` is raised before any method call), for
every argument tuple; and every subclass that supplies both
`jnu_bremss` and `jnu_sync` constructs successfully. -/
theorem C3_abstract_instantiation (rho T cos_theta B Z : ℝ) :
    (∀ inst, Radiating_cls.instantiate rho T cos_theta B Z ≠ Except.ok inst) ∧
    (∀ overrides : List Method,
      Method.jnu_bremss ∈ overrides → Method.jnu_sync ∈ overrides →
      ∃ inst, (Radiating_cls.subclass overrides).instantiate rho T cos_theta B Z =
        Except.ok inst) := by
  constructor
  · intro inst
    simp [PyClass.instantiate, Radiating_cls]
  · intro overrides hb hs
    have hfilter : (Radiating_cls.subclass overrides).abstracts = [] := by
      simp [PyClass.subclass, Radiating_cls, List.filter, hb, hs]
    refine ⟨⟨Radiating_cls.subclass overrides, Radiating.init rho T cos_theta B Z⟩, ?_⟩
    simp [PyClass.instantiate, hfilter]

theorem C3_abstract_instantiation_witness :
    (∀ inst, Radiating_cls.instantiate 1 1 0 0 1 ≠ Except.ok inst) ∧
    (∃ inst, Dummy_cls.instantiate 1 1 0 0 1 = Except.ok inst) := by
  refine ⟨(C3_abstract_instantiation 1 1 0 0 1).1, ?_⟩
  exact (C3_abstract_instantiation 1 1 0 0 1).2
    [Method.jnu_bremss, Method.jnu_sync] (by decide) (by decide)

/-! ## Claim C5: `RL.jnu_sync` is a stub -/

/-- C5 counterexample: in the concrete variant `RL`, `jnu_sync` does not
return an emissivity array of the input shape — on the one-element
frequency array `[1]` it returns `None` (the value of its `pass` body),
not a length-1 array. -/
theorem C5_sync_counterexample :
    ¬ ∃ ys : List ℝ,
      RL.jnu_sync (Radiating.init 1 1 0 0 1) [(1 : ℝ)] = some ys ∧
      ys.length = 1 := by
  rintro ⟨ys, hy, -⟩
  simp [RL.jnu_sync] at hy

/-- C5 amended: in the code, the concrete variant `RL` does NOT supply a
synchrotron formula; its `jnu_sync` body is `pass`, so the call returns
`None` for every receiver state and every frequency input (scalar or
array), rather than a value of the input shape. -/
theorem C5_sync_stub {α β : Type} (m : Radiating) (nu : α) :
    @RL.jnu_sync α β m nu = none := rfl

/-! ## Claim C9: immutability and purity -/

/-- A call of `Bnu`, with the receiver state threaded explicitly: the body
reads `self.T` and assigns no attribute, so the post-state is the
receiver unchanged. -/
noncomputable def Radiating.Bnu_call (m : Radiating) (nu : ℝ) : ℝ × Radiating :=
  (m.Bnu nu, m)

/-- A call of `RL.jnu_bremss` with the receiver state threaded explicitly:
the body reads `self.rho`, `self.T`, `self.Z` and assigns no attribute. -/
noncomputable def RL.jnu_bremss_call (m : Radiating) (nu : ℝ) : ℝ × Radiating :=
  (RL.jnu_bremss m nu, m)

/-- A call of `RL.jnu_sync` with the receiver state threaded explicitly:
the body is `pass` and assigns no attribute. -/
def RL.jnu_sync_call {α β : Type} (m : Radiating) (nu : α) :
    Option β × Radiating :=
  (RL.jnu_sync m nu, m)

/-- C9: every call of `Bnu`, `jnu_bremss` or `jnu_sync` leaves all five
attributes `rho`, `T`, `B`, `cos`, `Z` of the model unchanged, and calling
the same operation again on the post-state with the same frequency
returns the same result. -/
theorem C9_immutability_purity {α β : Type} (m : Radiating) (nu : ℝ) (nus : α) :
    ((m.Bnu_call nu).2.rho = m.rho ∧ (m.Bnu_call nu).2.T = m.T ∧
      (m.Bnu_call nu).2.B = m.B ∧ (m.Bnu_call nu).2.cos = m.cos ∧
      (m.Bnu_call nu).2.Z = m.Z) ∧
    (RL.jnu_bremss_call m nu).2 = m ∧
    (@RL.jnu_sync_call α β m nus).2 = m ∧
    ((m.Bnu_call nu).2.Bnu_call nu).1 = (m.Bnu_call nu).1 ∧
    (RL.jnu_bremss_call (RL.jnu_bremss_call m nu).2 nu).1 =
      (RL.jnu_bremss_call m nu).1 ∧
    (@RL.jnu_sync_call α β (@RL.jnu_sync_call α β m nus).2 nus).1 =
      (@RL.jnu_sync_call α β m nus).1 :=
  ⟨⟨rfl, rfl, rfl, rfl, rfl⟩, rfl, rfl, rfl, rfl, rfl⟩

/-! ## Claim C10: the unguarded division in `Bnu` -/

/-- IEEE-style evaluation of `Bnu`: float division yields an ordinary
value whenever the denominator is nonzero; at a zero denominator the
result here is `0 / 0` (both parts of `Bnu` vanish together, see
`C10_unguarded_division`), i.e. NaN, modelled as `none`. -/
noncomputable def Radiating.BnuIEEE (m : Radiating) (nu : ℝ) : Option ℝ :=
  if m.Bnu_den nu = 0 then none else some (m.Bnu_num nu / m.Bnu_den nu)

/-- C10: for every model with `T > 0`, at frequency `0` the numerator
`2·h·ν³/c²` and the denominator `exp(h·ν/(k_B·T)) − 1` of `Bnu` are both
`0`, so the unguarded float division produces NaN (`none` in the IEEE
model) rather than the limiting value `0`; and for every `ν ≠ 0` the
denominator is nonzero and the evaluation is total, returning the
formula value. -/
theorem C10_unguarded_division (rho T B cos_theta Z : ℝ) (hT : 0 < T) :
    ((Radiating.init rho T cos_theta B Z).Bnu_num 0 = 0 ∧
      (Radiating.init rho T cos_theta B Z).Bnu_den 0 = 0 ∧
      (Radiating.init rho T cos_theta B Z).BnuIEEE 0 = none) ∧
    (∀ nu : ℝ, nu ≠ 0 →
      (Radiating.init rho T cos_theta B Z).Bnu_den nu ≠ 0 ∧
      (Radiating.init rho T cos_theta B Z).BnuIEEE nu =
        some ((Radiating.init rho T cos_theta B Z).Bnu nu)) := by
  have hden0 : (Radiating.init rho T cos_theta B Z).Bnu_den 0 = 0 := by
    simp [Radiating.Bnu_den]
  constructor
  · refine ⟨by simp [Radiating.Bnu_num], hden0, ?_⟩
    simp [Radiating.BnuIEEE, hden0]
  · intro nu hnu
    have hx : (h * nu) / (k_B * (Radiating.init rho T cos_theta B Z).T) ≠ 0 :=
      div_ne_zero (mul_ne_zero h_pos.ne' hnu)
        (mul_ne_zero k_B_pos.ne' hT.ne')
    have hden : (Radiating.init rho T cos_theta B Z).Bnu_den nu ≠ 0 := by
      unfold Radiating.Bnu_den
      rw [sub_ne_zero]
      exact fun hc => hx (by simpa using hc)
    exact ⟨hden, by simp [Radiating.BnuIEEE, hden, Radiating.Bnu]⟩

theorem C10_unguarded_division_witness :
    (0 : ℝ) < 1 ∧
    (((Radiating.init 1 1 0 0 1).Bnu_num 0 = 0 ∧
      (Radiating.init 1 1 0 0 1).Bnu_den 0 = 0 ∧
      (Radiating.init 1 1 0 0 1).BnuIEEE 0 = none) ∧
    (∀ nu : ℝ, nu ≠ 0 →
      (Radiating.init 1 1 0 0 1).Bnu_den nu ≠ 0 ∧
      (Radiating.init 1 1 0 0 1).BnuIEEE nu =
        some ((Radiating.init 1 1 0 0 1).Bnu nu))) :=
  ⟨by norm_num, C10_unguarded_division 1 1 0 0 1 (by norm_num)⟩

/-! ## Helper lemmas on the bremsstrahlung amplitude -/

/-- The frequency-independent amplitude of `RL.jnu_bremss`:
`f * np.sqrt(self.T) * self.Z * self.Z * ne * ni`. -/
noncomputable def bremss_amp (m : Radiating) : ℝ :=
  (32 * Real.pi * e_gauss ^ 6) / (3 * m_e * c ^ 3) *
    Real.sqrt (2 * Real.pi / (3 * k_B * m_e)) * Real.sqrt m.T * m.Z * m.Z *
    (m.rho / (m_e + m_p)) * (m.rho / (m_e + m_p))

theorem jnu_bremss_eq_amp (m : Radiating) (nu : ℝ) :
    RL.jnu_bremss m nu = bremss_amp m * Real.exp (-(h * nu) / (k_B * m.T)) := by
  unfold RL.jnu_bremss bremss_amp
  ring

theorem bremss_prefactor_pos :
    0 < (32 * Real.pi * e_gauss ^ 6) / (3 * m_e * c ^ 3) *
      Real.sqrt (2 * Real.pi / (3 * k_B * m_e)) := by
  apply mul_pos
  · apply div_pos
    · exact mul_pos (mul_pos (by norm_num) Real.pi_pos) (pow_pos e_gauss_pos 6)
    · exact mul_pos (mul_pos (by norm_num) m_e_pos) (pow_pos c_pos 3)
  · apply Real.sqrt_pos.mpr
    apply div_pos
    · exact mul_pos (by norm_num) Real.pi_pos
    · exact mul_pos (mul_pos (by norm_num) k_B_pos) m_e_pos

theorem n_e_pos {rho : ℝ} (hrho : 0 < rho) : 0 < rho / (m_e + m_p) := by
  apply div_pos hrho
  have h1 := m_e_pos
  have h2 := m_p_pos
  linarith

theorem bremss_amp_pos (m : Radiating) (hrho : 0 < m.rho) (hT : 0 < m.T)
    (hZ : m.Z ≠ 0) : 0 < bremss_amp m := by
  unfold bremss_amp
  have key : (32 * Real.pi * e_gauss ^ 6) / (3 * m_e * c ^ 3) *
      Real.sqrt (2 * Real.pi / (3 * k_B * m_e)) * Real.sqrt m.T * m.Z * m.Z *
      (m.rho / (m_e + m_p)) * (m.rho / (m_e + m_p)) =
      (32 * Real.pi * e_gauss ^ 6) / (3 * m_e * c ^ 3) *
      Real.sqrt (2 * Real.pi / (3 * k_B * m_e)) * Real.sqrt m.T *
      (m.Z * m.Z) * (m.rho / (m_e + m_p) * (m.rho / (m_e + m_p))) := by ring
  rw [key]
  apply mul_pos
  apply mul_pos
  · exact mul_pos bremss_prefactor_pos (Real.sqrt_pos.mpr hT)
  · exact mul_self_pos.mpr hZ
  · exact mul_pos (n_e_pos hrho) (n_e_pos hrho)

theorem jnu_bremss_pos (m : Radiating) (hrho : 0 < m.rho) (hT : 0 < m.T)
    (hZ : m.Z ≠ 0) (nu : ℝ) : 0 < RL.jnu_bremss m nu := by
  rw [jnu_bremss_eq_amp]
  exact mul_pos (bremss_amp_pos m hrho hT hZ) (Real.exp_pos _)

/-! ## Claim C6: strict decrease in frequency -/

/-- C6: for every model with valid attributes (`rho > 0`, `T > 0`,
`Z > 0`) and every pair of frequencies `nu1 < nu2`, the bremsstrahlung
emissivity at `nu2` is strictly below the one at `nu1`. -/
theorem C6_bremss_decreasing (rho T B cos_theta Z : ℝ) (hrho : 0 < rho)
    (hT : 0 < T) (hZ : 0 < Z) (nu1 nu2 : ℝ) (hlt : nu1 < nu2) :
    RL.jnu_bremss (Radiating.init rho T cos_theta B Z) nu2 <
      RL.jnu_bremss (Radiating.init rho T cos_theta B Z) nu1 := by
  rw [jnu_bremss_eq_amp, jnu_bremss_eq_amp]
  have hamp : 0 < bremss_amp (Radiating.init rho T cos_theta B Z) :=
    bremss_amp_pos _ hrho hT hZ.ne'
  apply mul_lt_mul_of_pos_left _ hamp
  apply Real.exp_lt_exp.mpr
  apply div_lt_div_of_pos_right _ (mul_pos k_B_pos hT)
  have := mul_lt_mul_of_pos_left hlt h_pos
  linarith

theorem C6_bremss_decreasing_witness :
    RL.jnu_bremss (Radiating.init 1 1 0 0 1) 1 <
      RL.jnu_bremss (Radiating.init 1 1 0 0 1) 0 :=
  C6_bremss_decreasing 1 1 0 0 1 (by norm_num) (by norm_num) (by norm_num)
    0 1 (by norm_num)

/-! ## Claim C4: the scaling of `jnu_bremss` in `(Z, T, rho)` -/

/-- C4 counterexample: the claimed ratio law fails when the two models
differ in temperature.  With `Z₁ = Z₂ = 1`, `ρ₁ = ρ₂ = 1`, `T₁ = 1`,
`T₂ = 4` and the fixed frequency `ν = k_B/h`, the claimed value is
`(1/1)² · (1/4)^(1/2) · (1/1)² = 1/2`, but the code's ratio is
`exp(−1) / (2·exp(−1/4)) = exp(−3/4)/2 < 1/2`, because the factor
`exp(−h·ν/(k_B·T))` also depends on the temperature. -/
theorem C4_bremss_scaling_counterexample :
    RL.jnu_bremss (Radiating.init 1 1 0 0 1) (k_B / h) /
      RL.jnu_bremss (Radiating.init 1 4 0 0 1) (k_B / h) ≠
    ((1 : ℝ) / 1) ^ 2 * ((1 : ℝ) / 4) ^ ((1 : ℝ) / 2) * ((1 : ℝ) / 1) ^ 2 := by
  have hh := h_pos
  have hk := k_B_pos
  have x1 : -(h * (k_B / h)) / (k_B * (Radiating.init 1 1 0 0 1).T) = -1 := by
    show -(h * (k_B / h)) / (k_B * 1) = -1
    field_simp
  have x2 : -(h * (k_B / h)) / (k_B * (Radiating.init 1 4 0 0 1).T) = -(1 / 4) := by
    show -(h * (k_B / h)) / (k_B * 4) = -(1 / 4)
    rw [div_eq_iff (by positivity)]
    field_simp
  have amp2 : bremss_amp (Radiating.init 1 4 0 0 1) =
      2 * bremss_amp (Radiating.init 1 1 0 0 1) := by
    unfold bremss_amp Radiating.init
    simp only
    rw [Real.sqrt_one, show (4 : ℝ) = 2 ^ 2 by norm_num,
      Real.sqrt_sq (by norm_num)]
    ring
  have hamp : 0 < bremss_amp (Radiating.init 1 1 0 0 1) :=
    bremss_amp_pos _ (by norm_num [Radiating.init]) (by norm_num [Radiating.init])
      (by norm_num [Radiating.init])
  rw [jnu_bremss_eq_amp, jnu_bremss_eq_amp, x1, x2, amp2]
  have hexp4 : (0 : ℝ) < Real.exp (-(1 / 4)) := Real.exp_pos _
  have hlt : Real.exp (-1) < Real.exp (-(1 / 4)) :=
    Real.exp_lt_exp.mpr (by norm_num)
  have hval : ((1 : ℝ) / 4) ^ ((1 : ℝ) / 2) = 1 / 2 := by
    rw [← Real.sqrt_eq_rpow, show (1 / 4 : ℝ) = (1 / 2) ^ 2 by norm_num,
      Real.sqrt_sq (by norm_num)]
  rw [hval]
  have hne : bremss_amp (Radiating.init 1 1 0 0 1) * Real.exp (-1) /
      (2 * bremss_amp (Radiating.init 1 1 0 0 1) * Real.exp (-(1 / 4))) <
      1 / 2 := by
    rw [div_lt_iff (by positivity)]
    have := mul_lt_mul_of_pos_left hlt hamp
    linarith
  intro hcontra
  rw [hcontra] at hne
  norm_num at hne

/-- C4 amended: at a fixed frequency `ν` the ratio of two bremsstrahlung
emissivities with valid attributes `(ρ₁, T₁, Z₁)` and `(ρ₂, T₂, Z₂)` is
`(Z₁/Z₂)² · (T₁/T₂)^(1/2) · (ρ₁/ρ₂)²` times the extra temperature factor
`exp(−h·ν/(k_B·T₁) + h·ν/(k_B·T₂))` coming from the exponential falloff;
the claimed pure scaling law is exact only for the frequency-independent
amplitude (equivalently, whenever `T₁ = T₂` or `ν = 0`). -/
theorem ratio_helper (F s1 s2 z1 z2 n1 n2 E1 E2 : ℝ) (hF : F ≠ 0)
    (hs2 : s2 ≠ 0) (hz2 : z2 ≠ 0) (hn2 : n2 ≠ 0) (hE2 : E2 ≠ 0) :
    F * s1 * z1 * z1 * n1 * n1 * E1 / (F * s2 * z2 * z2 * n2 * n2 * E2) =
      (z1 / z2) ^ 2 * (s1 / s2) * (n1 / n2) ^ 2 * (E1 / E2) := by
  field_simp
  ring

theorem C4_bremss_scaling (rho1 T1 Z1 rho2 T2 Z2 B1 cos1 B2 cos2 nu : ℝ)
    (hrho1 : 0 < rho1) (hT1 : 0 < T1) (hZ1 : 0 < Z1)
    (hrho2 : 0 < rho2) (hT2 : 0 < T2) (hZ2 : 0 < Z2) :
    RL.jnu_bremss (Radiating.init rho1 T1 cos1 B1 Z1) nu /
      RL.jnu_bremss (Radiating.init rho2 T2 cos2 B2 Z2) nu =
    (Z1 / Z2) ^ 2 * Real.sqrt (T1 / T2) * (rho1 / rho2) ^ 2 *
      Real.exp (-(h * nu) / (k_B * T1) + h * nu / (k_B * T2)) := by
  have hM : (0 : ℝ) < m_e + m_p := by
    have := m_e_pos; have := m_p_pos; linarith
  have hratio : (rho1 / (m_e + m_p)) / (rho2 / (m_e + m_p)) = rho1 / rho2 := by
    rw [div_div_div_comm, div_self hM.ne', div_one]
  rw [jnu_bremss_eq_amp, jnu_bremss_eq_amp]
  unfold bremss_amp Radiating.init
  simp only
  rw [ratio_helper _ _ _ _ _ _ _ _ _ bremss_prefactor_pos.ne'
    (Real.sqrt_pos.mpr hT2).ne' hZ2.ne' (n_e_pos hrho2).ne' (Real.exp_pos _).ne',
    hratio, Real.sqrt_div hT1.le, ← Real.exp_sub]
  congr 1
  ring

theorem C4_bremss_scaling_witness :
    RL.jnu_bremss (Radiating.init 1 1 0 0 1) 0 /
      RL.jnu_bremss (Radiating.init 1 1 0 0 1) 0 =
    ((1 : ℝ) / 1) ^ 2 * Real.sqrt (1 / 1) * ((1 : ℝ) / 1) ^ 2 *
      Real.exp (-(h * 0) / (k_B * 1) + h * 0 / (k_B * 1)) :=
  C4_bremss_scaling 1 1 1 1 1 1 0 0 0 0 0 (by norm_num) (by norm_num)
    (by norm_num) (by norm_num) (by norm_num) (by norm_num)

/-! ## Helper lemmas on `Bnu` for the limit and peak claims -/

theorem Bnu_num_pos (m : Radiating) {nu : ℝ} (hnu : 0 < nu) :
    0 < m.Bnu_num nu := by
  unfold Radiating.Bnu_num
  exact div_pos
    (mul_pos (mul_pos (by norm_num) h_pos) (mul_pos (mul_pos hnu hnu) hnu))
    (mul_pos c_pos c_pos)

theorem Bnu_x_pos (m : Radiating) (hT : 0 < m.T) {nu : ℝ} (hnu : 0 < nu) :
    0 < (h * nu) / (k_B * m.T) :=
  div_pos (mul_pos h_pos hnu) (mul_pos k_B_pos hT)

theorem Bnu_den_pos (m : Radiating) (hT : 0 < m.T) {nu : ℝ} (hnu : 0 < nu) :
    0 < m.Bnu_den nu := by
  unfold Radiating.Bnu_den
  have hx := Bnu_x_pos m hT hnu
  linarith [Real.add_one_le_exp ((h * nu) / (k_B * m.T))]

theorem Bnu_pos (m : Radiating) (hT : 0 < m.T) {nu : ℝ} (hnu : 0 < nu) :
    0 < m.Bnu nu :=
  div_pos (Bnu_num_pos m hnu) (Bnu_den_pos m hT hnu)

/-- Near `ν = 0`: since `exp x − 1 ≥ x`, the Planck function is bounded by
a quadratic in the frequency. -/
theorem Bnu_le_quad (m : Radiating) (hT : 0 < m.T) {nu : ℝ} (hnu : 0 < nu) :
    m.Bnu nu ≤ 2 * k_B * m.T / (c * c) * nu ^ 2 := by
  have hx := Bnu_x_pos m hT hnu
  have hden_ge : (h * nu) / (k_B * m.T) ≤ m.Bnu_den nu := by
    unfold Radiating.Bnu_den
    linarith [Real.add_one_le_exp ((h * nu) / (k_B * m.T))]
  have h1 : m.Bnu nu ≤ m.Bnu_num nu / ((h * nu) / (k_B * m.T)) :=
    div_le_div_of_nonneg_left (Bnu_num_pos m hnu).le hx hden_ge
  calc m.Bnu nu ≤ m.Bnu_num nu / ((h * nu) / (k_B * m.T)) := h1
    _ = 2 * k_B * m.T / (c * c) * nu ^ 2 := by
        unfold Radiating.Bnu_num
        have e1 : h ≠ 0 := h_pos.ne'
        have e2 : nu ≠ 0 := hnu.ne'
        have e3 : c ≠ 0 := c_pos.ne'
        have e4 : k_B ≠ 0 := k_B_pos.ne'
        have e5 : m.T ≠ 0 := hT.ne'
        field_simp
        ring

/-- At large `ν`: since `exp x − 1 ≥ exp x / 2` once `x ≥ 1`, the Planck
function is bounded by a cubic times a decaying exponential. -/
theorem Bnu_le_exp_bound (m : Radiating) (hT : 0 < m.T) {nu : ℝ}
    (hnu : 0 < nu) (hbig : 1 ≤ (h * nu) / (k_B * m.T)) :
    m.Bnu nu ≤ 4 * h / (c * c) * (nu * nu * nu) *
      Real.exp (-(h / (k_B * m.T) * nu)) := by
  have hexp2 : (2 : ℝ) ≤ Real.exp ((h * nu) / (k_B * m.T)) := by
    have he1 : Real.exp 1 ≤ Real.exp ((h * nu) / (k_B * m.T)) :=
      Real.exp_le_exp.mpr hbig
    linarith [Real.exp_one_gt_d9]
  have hhalf : (0 : ℝ) < Real.exp ((h * nu) / (k_B * m.T)) / 2 := by
    linarith
  have hden_ge : Real.exp ((h * nu) / (k_B * m.T)) / 2 ≤ m.Bnu_den nu := by
    unfold Radiating.Bnu_den
    linarith
  have h1 : m.Bnu nu ≤ m.Bnu_num nu / (Real.exp ((h * nu) / (k_B * m.T)) / 2) :=
    div_le_div_of_nonneg_left (Bnu_num_pos m hnu).le hhalf hden_ge
  calc m.Bnu nu ≤ m.Bnu_num nu / (Real.exp ((h * nu) / (k_B * m.T)) / 2) := h1
    _ = 4 * h / (c * c) * (nu * nu * nu) *
        Real.exp (-(h / (k_B * m.T) * nu)) := by
        rw [show -(h / (k_B * m.T) * nu) = -((h * nu) / (k_B * m.T)) by ring,
          Real.exp_neg]
        unfold Radiating.Bnu_num
        rw [div_div_eq_mul_div]
        rw [div_eq_mul_inv _ (Real.exp ((h * nu) / (k_B * m.T)))]
        ring

/-! ## Claim C8: limits of the Planck function -/

/-- C8: for every model with `T > 0`, the Planck function `Bnu` tends to
`0` as the frequency tends to `0` from within the physical domain
`ν > 0`, and tends to `0` as the frequency tends to `+∞`. -/
theorem C8_planck_limits (rho T B cos_theta Z : ℝ) (hT : 0 < T) :
    Filter.Tendsto (Radiating.Bnu (Radiating.init rho T cos_theta B Z))
      (nhdsWithin 0 (Set.Ioi 0)) (nhds 0) ∧
    Filter.Tendsto (Radiating.Bnu (Radiating.init rho T cos_theta B Z))
      Filter.atTop (nhds 0) := by
  have hTm : 0 < (Radiating.init rho T cos_theta B Z).T := hT
  constructor
  · have hupper : Filter.Tendsto
        (fun nu : ℝ => 2 * k_B * (Radiating.init rho T cos_theta B Z).T /
          (c * c) * nu ^ 2) (nhdsWithin 0 (Set.Ioi 0)) (nhds 0) := by
      have hcont : Filter.Tendsto
          (fun nu : ℝ => 2 * k_B * (Radiating.init rho T cos_theta B Z).T /
            (c * c) * nu ^ 2) (nhds 0)
          (nhds (2 * k_B * (Radiating.init rho T cos_theta B Z).T /
            (c * c) * (0 : ℝ) ^ 2)) :=
        (Continuous.tendsto (by continuity) 0)
      simpa using hcont.mono_left nhdsWithin_le_nhds
    apply tendsto_of_tendsto_of_tendsto_of_le_of_le' tendsto_const_nhds hupper
    · exact Filter.eventually_of_mem self_mem_nhdsWithin
        fun nu hnu => (Bnu_pos _ hTm hnu).le
    · exact Filter.eventually_of_mem self_mem_nhdsWithin
        fun nu hnu => Bnu_le_quad _ hTm hnu
  · have hb : 0 < h / (k_B * (Radiating.init rho T cos_theta B Z).T) :=
      div_pos h_pos (mul_pos k_B_pos hTm)
    have hg : Filter.Tendsto (fun y : ℝ => y ^ 3 * Real.exp (-y))
        Filter.atTop (nhds 0) := Real.tendsto_pow_mul_exp_neg_atTop_nhds_zero 3
    have hcomp : Filter.Tendsto (fun nu : ℝ =>
        (h / (k_B * (Radiating.init rho T cos_theta B Z).T) * nu) ^ 3 *
          Real.exp (-(h / (k_B * (Radiating.init rho T cos_theta B Z).T) * nu)))
        Filter.atTop (nhds 0) :=
      hg.comp (Filter.Tendsto.const_mul_atTop hb Filter.tendsto_id)
    have hupper : Filter.Tendsto (fun nu : ℝ =>
        4 * h / (c * c) * (nu * nu * nu) *
          Real.exp (-(h / (k_B * (Radiating.init rho T cos_theta B Z).T) * nu)))
        Filter.atTop (nhds 0) := by
      have heq : (fun nu : ℝ => 4 * h / (c * c) * (nu * nu * nu) *
          Real.exp (-(h / (k_B * (Radiating.init rho T cos_theta B Z).T) * nu))) =
          fun nu : ℝ =>
            (4 * h / (c * c) / (h / (k_B * (Radiating.init rho T cos_theta B Z).T)) ^ 3) *
            ((h / (k_B * (Radiating.init rho T cos_theta B Z).T) * nu) ^ 3 *
              Real.exp (-(h / (k_B * (Radiating.init rho T cos_theta B Z).T) * nu))) := by
        funext nu
        have e1 : h ≠ 0 := h_pos.ne'
        have e3 : c ≠ 0 := c_pos.ne'
        have e4 : k_B ≠ 0 := k_B_pos.ne'
        have e5 : (Radiating.init rho T cos_theta B Z).T ≠ 0 := hTm.ne'
        rw [div_pow, mul_pow]
        field_simp
        ring
      rw [heq]
      simpa using hcomp.const_mul
        (4 * h / (c * c) / (h / (k_B * (Radiating.init rho T cos_theta B Z).T)) ^ 3)
    apply tendsto_of_tendsto_of_tendsto_of_le_of_le' tendsto_const_nhds hupper
    · filter_upwards [Filter.eventually_gt_atTop 0] with nu hnu
      exact (Bnu_pos _ hTm hnu).le
    · filter_upwards [Filter.eventually_gt_atTop 0,
        Filter.eventually_ge_atTop
          ((k_B * (Radiating.init rho T cos_theta B Z).T) / h)] with nu hnu hge
      apply Bnu_le_exp_bound _ hTm hnu
      rw [le_div_iff (mul_pos k_B_pos hTm)]
      rw [div_le_iff h_pos] at hge
      linarith

theorem C8_planck_limits_witness :
    (0 : ℝ) < 1 ∧
    (Filter.Tendsto (Radiating.Bnu (Radiating.init 1 1 0 0 1))
      (nhdsWithin 0 (Set.Ioi 0)) (nhds 0) ∧
    Filter.Tendsto (Radiating.Bnu (Radiating.init 1 1 0 0 1))
      Filter.atTop (nhds 0)) :=
  ⟨by norm_num, C8_planck_limits 1 1 0 0 1 (by norm_num)⟩

/-! ## The shape of the Planck function

`Bnu` factors (for `T > 0`) as a positive constant times
`planckShape (x)` with `x = h·ν/(k_B·T)`, where
`planckShape x = x³/(exp x − 1)`.  Its derivative has the sign of
`planckPhi x = 3(exp x − 1) − x·exp x`, which is positive up to a unique
root `x* ∈ (2.82, 2.83)` (Wien's displacement constant) and negative
beyond. -/

noncomputable def planckShape (x : ℝ) : ℝ :=
  x ^ 3 / (Real.exp x - 1)

noncomputable def planckPhi (x : ℝ) : ℝ :=
  3 * (Real.exp x - 1) - x * Real.exp x

theorem planckPhi_continuous : Continuous planckPhi := by
  unfold planckPhi
  exact (continuous_const.mul (Real.continuous_exp.sub continuous_const)).sub
    (continuous_id.mul Real.continuous_exp)

theorem planckPhi_zero : planckPhi 0 = 0 := by
  simp [planckPhi]

theorem hasDerivAt_planckPhi (x : ℝ) :
    HasDerivAt planckPhi ((2 - x) * Real.exp x) x := by
  have h1 : HasDerivAt (fun y : ℝ => 3 * (Real.exp y - 1)) (3 * Real.exp x) x := by
    simpa using ((Real.hasDerivAt_exp x).sub_const 1).const_mul (3 : ℝ)
  have h2 : HasDerivAt (fun y : ℝ => y * Real.exp y)
      (1 * Real.exp x + x * Real.exp x) x :=
    (hasDerivAt_id x).mul (Real.hasDerivAt_exp x)
  have h3 := h1.sub h2
  have hrw : planckPhi = fun y : ℝ => 3 * (Real.exp y - 1) - y * Real.exp y := rfl
  rw [hrw]
  convert h3 using 1
  ring

theorem planckPhi_strictMonoOn : StrictMonoOn planckPhi (Set.Icc 0 2) := by
  apply strictMonoOn_of_deriv_pos (convex_Icc 0 2)
    planckPhi_continuous.continuousOn
  intro x hx
  rw [interior_Icc] at hx
  rw [(hasDerivAt_planckPhi x).deriv]
  exact mul_pos (by linarith [hx.2]) (Real.exp_pos x)

theorem planckPhi_strictAntiOn : StrictAntiOn planckPhi (Set.Ici 2) := by
  apply strictAntiOn_of_deriv_neg (convex_Ici 2)
    planckPhi_continuous.continuousOn
  intro x hx
  rw [interior_Ici] at hx
  rw [(hasDerivAt_planckPhi x).deriv]
  have hx2 : (2 : ℝ) < x := hx
  exact mul_neg_of_neg_of_pos (by linarith) (Real.exp_pos x)

theorem planckPhi_pos_of_le_two {x : ℝ} (hx0 : 0 < x) (hx2 : x ≤ 2) :
    0 < planckPhi x := by
  have hstep := planckPhi_strictMonoOn
    (Set.mem_Icc.mpr ⟨le_refl (0 : ℝ), by norm_num⟩)
    (Set.mem_Icc.mpr ⟨hx0.le, hx2⟩) hx0
  rw [planckPhi_zero] at hstep
  exact hstep

/-! Numeric bounds locating the root of `planckPhi` in `(2.82, 2.83)`. -/

theorem exp_082_ge : (2.266 : ℝ) ≤ Real.exp 0.82 := by
  have hs := Real.sum_le_exp_of_nonneg (by norm_num : (0 : ℝ) ≤ 0.82) 5
  norm_num [Finset.sum_range_succ, Nat.factorial] at hs
  have hval : ((0.82 : ℝ)) = 41 / 50 := by norm_num
  rw [hval]
  linarith

theorem exp_282_gt : (50 / 3 : ℝ) < Real.exp 2.82 := by
  have h1 : Real.exp 2.82 = Real.exp 1 * Real.exp 1 * Real.exp 0.82 := by
    rw [← Real.exp_add, ← Real.exp_add]
    norm_num
  have step1 : (7.389056 : ℝ) < Real.exp 1 * Real.exp 1 := by
    nlinarith [Real.exp_one_gt_d9, Real.exp_pos 1]
  rw [h1]
  nlinarith [step1, exp_082_ge, Real.exp_pos (0.82 : ℝ)]

theorem exp_283_lt : Real.exp 2.83 < 300 / 17 := by
  have h1 : Real.exp 2.83 * Real.exp 0.17 = Real.exp 3 := by
    rw [← Real.exp_add]
    norm_num
  have h2 : Real.exp 3 = Real.exp 1 * Real.exp 1 * Real.exp 1 := by
    rw [← Real.exp_add, ← Real.exp_add]
    norm_num
  have h3 : Real.exp 3 < 20.086 := by
    rw [h2]
    nlinarith [Real.exp_one_lt_d9, Real.exp_pos 1]
  have h4 : (1.17 : ℝ) ≤ Real.exp 0.17 := by
    linarith [Real.add_one_le_exp (0.17 : ℝ)]
  have h5 : Real.exp 2.83 = Real.exp 3 / Real.exp 0.17 := by
    rw [eq_div_iff (Real.exp_pos 0.17).ne']
    exact h1
  rw [h5, div_lt_iff (Real.exp_pos 0.17)]
  calc Real.exp 3 < 20.086 := h3
    _ ≤ 300 / 17 * 1.17 := by norm_num
    _ ≤ 300 / 17 * Real.exp 0.17 := by nlinarith [h4]

theorem planckPhi_282_pos : 0 < planckPhi 2.82 := by
  unfold planckPhi
  linarith [exp_282_gt]

theorem planckPhi_283_neg : planckPhi 2.83 < 0 := by
  unfold planckPhi
  linarith [exp_283_lt]

theorem planckPhi_root_exists :
    ∃ xs : ℝ, xs ∈ Set.Ioo (2.82 : ℝ) 2.83 ∧ planckPhi xs = 0 := by
  have hsub := intermediate_value_Ioo' (by norm_num : (2.82 : ℝ) ≤ 2.83)
    planckPhi_continuous.continuousOn
  have hmem : (0 : ℝ) ∈ Set.Ioo (planckPhi 2.83) (planckPhi 2.82) :=
    ⟨planckPhi_283_neg, planckPhi_282_pos⟩
  obtain ⟨xs, hxs, hval⟩ := hsub hmem
  exact ⟨xs, hxs, hval⟩

theorem planckPhi_pos_of_lt {xs : ℝ} (hxs2 : 2 < xs) (hroot : planckPhi xs = 0)
    {x : ℝ} (hx0 : 0 < x) (hxlt : x < xs) : 0 < planckPhi x := by
  rcases le_or_lt x 2 with hc | hc
  · exact planckPhi_pos_of_le_two hx0 hc
  · have hstep := planckPhi_strictAntiOn (Set.mem_Ici.mpr hc.le)
      (Set.mem_Ici.mpr (by linarith)) hxlt
    rw [hroot] at hstep
    exact hstep

theorem planckPhi_neg_of_gt {xs : ℝ} (hxs2 : 2 < xs) (hroot : planckPhi xs = 0)
    {x : ℝ} (hxgt : xs < x) : planckPhi x < 0 := by
  have hstep := planckPhi_strictAntiOn (Set.mem_Ici.mpr (by linarith))
    (Set.mem_Ici.mpr (by linarith)) hxgt
  rw [hroot] at hstep
  exact hstep

theorem exp_sub_one_pos {x : ℝ} (hx : 0 < x) : 0 < Real.exp x - 1 := by
  linarith [Real.add_one_le_exp x]

theorem hasDerivAt_planckShape {x : ℝ} (hx : 0 < x) :
    HasDerivAt planckShape
      (x ^ 2 * planckPhi x / (Real.exp x - 1) ^ 2) x := by
  have hden : Real.exp x - 1 ≠ 0 := (exp_sub_one_pos hx).ne'
  have hnum : HasDerivAt (fun y : ℝ => y ^ 3) (3 * x ^ 2) x := by
    simpa using hasDerivAt_pow 3 x
  have hden' : HasDerivAt (fun y : ℝ => Real.exp y - 1) (Real.exp x) x :=
    (Real.hasDerivAt_exp x).sub_const 1
  have hdiv := hnum.div hden' hden
  have hrw : planckShape = fun y : ℝ => y ^ 3 / (Real.exp y - 1) := rfl
  rw [hrw]
  convert hdiv using 1
  unfold planckPhi
  rw [div_eq_div_iff (pow_ne_zero 2 hden) (pow_ne_zero 2 hden)]
  ring

theorem planckShape_continuousOn : ContinuousOn planckShape (Set.Ioi 0) := by
  apply ContinuousOn.div
  · exact (continuous_pow 3).continuousOn
  · exact (Real.continuous_exp.sub continuous_const).continuousOn
  · intro x hx
    exact (exp_sub_one_pos hx).ne'

theorem planckShape_strictMonoOn {xs : ℝ} (hxs2 : 2 < xs)
    (hroot : planckPhi xs = 0) :
    StrictMonoOn planckShape (Set.Ioc 0 xs) := by
  apply strictMonoOn_of_deriv_pos (convex_Ioc 0 xs)
    (planckShape_continuousOn.mono fun x hx => hx.1)
  intro x hx
  rw [interior_Ioc] at hx
  rw [(hasDerivAt_planckShape hx.1).deriv]
  apply div_pos
  · exact mul_pos (pow_pos hx.1 2)
      (planckPhi_pos_of_lt hxs2 hroot hx.1 hx.2)
  · exact pow_pos (exp_sub_one_pos hx.1) 2

theorem planckShape_strictAntiOn {xs : ℝ} (hxs2 : 2 < xs)
    (hroot : planckPhi xs = 0) :
    StrictAntiOn planckShape (Set.Ici xs) := by
  apply strictAntiOn_of_deriv_neg (convex_Ici xs)
    (planckShape_continuousOn.mono fun x hx => lt_of_lt_of_le (by linarith) hx)
  intro x hx
  rw [interior_Ici] at hx
  have hx0 : (0 : ℝ) < x := by
    have : xs < x := hx
    linarith
  rw [(hasDerivAt_planckShape hx0).deriv]
  apply div_neg_of_neg_of_pos
  · exact mul_neg_of_pos_of_neg (pow_pos hx0 2)
      (planckPhi_neg_of_gt hxs2 hroot hx)
  · exact pow_pos (exp_sub_one_pos hx0) 2

/-- For `T > 0` the Planck function factors as a positive constant times
the dimensionless shape evaluated at `x = h·ν/(k_B·T)`. -/
theorem Bnu_eq_planckShape (m : Radiating) (hT : 0 < m.T) (nu : ℝ) :
    m.Bnu nu = 2 * h / (c * c) * (k_B * m.T / h) ^ 3 *
      planckShape (h / (k_B * m.T) * nu) := by
  rw [show h / (k_B * m.T) * nu = h * nu / (k_B * m.T) by ring]
  unfold Radiating.Bnu Radiating.Bnu_num Radiating.Bnu_den planckShape
  have e1 : h ≠ 0 := h_pos.ne'
  have e3 : c ≠ 0 := c_pos.ne'
  have e4 : k_B ≠ 0 := k_B_pos.ne'
  have e5 : m.T ≠ 0 := hT.ne'
  rcases eq_or_ne (Real.exp (h * nu / (k_B * m.T)) - 1) 0 with hD | hD
  · rw [hD]
    simp
  · field_simp
    ring

/-! ## Claim C7: single-peaked Planck function (Wien displacement) -/

/-- C7: for every model with `T > 0`, the Planck function `Bnu` is
non-negative at every frequency `ν > 0`, and as a function of frequency
it is single-peaked: there is a peak frequency `νp`, lying in
`(2.82·k_B·T/h, 2.83·k_B·T/h)` (so `νp ≈ 2.82·k_B·T/h`, Wien's law,
the root of `3(eˣ−1) = x·eˣ` being `x* ≈ 2.8214`), such that `Bnu` is
strictly increasing on `(0, νp]`, strictly decreasing on `[νp, ∞)`, and
strictly below its peak value at every other positive frequency. -/
theorem C7_planck_single_peak (rho T B cos_theta Z : ℝ) (hT : 0 < T) :
    (∀ nu : ℝ, 0 < nu →
      0 ≤ Radiating.Bnu (Radiating.init rho T cos_theta B Z) nu) ∧
    ∃ nup : ℝ, 2.82 * (k_B * T / h) < nup ∧ nup < 2.83 * (k_B * T / h) ∧
      StrictMonoOn (Radiating.Bnu (Radiating.init rho T cos_theta B Z))
        (Set.Ioc 0 nup) ∧
      StrictAntiOn (Radiating.Bnu (Radiating.init rho T cos_theta B Z))
        (Set.Ici nup) ∧
      (∀ nu : ℝ, 0 < nu → nu ≠ nup →
        Radiating.Bnu (Radiating.init rho T cos_theta B Z) nu <
          Radiating.Bnu (Radiating.init rho T cos_theta B Z) nup) := by
  have hTm : 0 < (Radiating.init rho T cos_theta B Z).T := hT
  refine ⟨fun nu hnu => (Bnu_pos _ hTm hnu).le, ?_⟩
  obtain ⟨xs, hxs, hroot⟩ := planckPhi_root_exists
  have hxs282 : (2.82 : ℝ) < xs := hxs.1
  have hxs283 : xs < (2.83 : ℝ) := hxs.2
  have hxs2 : (2 : ℝ) < xs := by linarith
  have hxs0 : (0 : ℝ) < xs := by linarith
  have hscale : (0 : ℝ) < k_B * T / h := div_pos (mul_pos k_B_pos hT) h_pos
  have hb : (0 : ℝ) < h / (k_B * T) := div_pos h_pos (mul_pos k_B_pos hT)
  have htrans : ∀ nu : ℝ,
      Radiating.Bnu (Radiating.init rho T cos_theta B Z) nu =
        2 * h / (c * c) * (k_B * T / h) ^ 3 *
          planckShape (h / (k_B * T) * nu) :=
    fun nu => Bnu_eq_planckShape (Radiating.init rho T cos_theta B Z) hT nu
  have hK : (0 : ℝ) < 2 * h / (c * c) * (k_B * T / h) ^ 3 :=
    mul_pos (div_pos (mul_pos (by norm_num) h_pos) (mul_pos c_pos c_pos))
      (pow_pos hscale 3)
  have e1 : h ≠ 0 := h_pos.ne'
  have e4 : k_B ≠ 0 := k_B_pos.ne'
  have e5 : T ≠ 0 := hT.ne'
  have hbnup : h / (k_B * T) * (xs * (k_B * T / h)) = xs := by
    field_simp
    ring
  have hmono : StrictMonoOn
      (Radiating.Bnu (Radiating.init rho T cos_theta B Z))
      (Set.Ioc 0 (xs * (k_B * T / h))) := by
    intro nu1 h1 nu2 h2 hlt
    rw [htrans nu1, htrans nu2]
    apply mul_lt_mul_of_pos_left _ hK
    apply planckShape_strictMonoOn hxs2 hroot
    · exact ⟨mul_pos hb h1.1, by
        rw [← hbnup]
        exact mul_le_mul_of_nonneg_left h1.2 hb.le⟩
    · exact ⟨mul_pos hb h2.1, by
        rw [← hbnup]
        exact mul_le_mul_of_nonneg_left h2.2 hb.le⟩
    · exact mul_lt_mul_of_pos_left hlt hb
  have hanti : StrictAntiOn
      (Radiating.Bnu (Radiating.init rho T cos_theta B Z))
      (Set.Ici (xs * (k_B * T / h))) := by
    intro nu1 h1 nu2 h2 hlt
    rw [htrans nu1, htrans nu2]
    apply mul_lt_mul_of_pos_left _ hK
    apply planckShape_strictAntiOn hxs2 hroot
    · rw [Set.mem_Ici, ← hbnup]
      exact mul_le_mul_of_nonneg_left h1 hb.le
    · rw [Set.mem_Ici, ← hbnup]
      exact mul_le_mul_of_nonneg_left h2 hb.le
    · exact mul_lt_mul_of_pos_left hlt hb
  refine ⟨xs * (k_B * T / h),
    mul_lt_mul_of_pos_right hxs282 hscale,
    mul_lt_mul_of_pos_right hxs283 hscale, hmono, hanti, ?_⟩
  intro nu hnu hne
  have hnup_pos : 0 < xs * (k_B * T / h) := mul_pos hxs0 hscale
  rcases lt_or_gt_of_ne hne with hcase | hcase
  · exact hmono ⟨hnu, hcase.le⟩ ⟨hnup_pos, le_refl _⟩ hcase
  · exact hanti (Set.mem_Ici.mpr (le_refl _)) (Set.mem_Ici.mpr hcase.le) hcase

theorem C7_planck_single_peak_witness :
    (0 : ℝ) < 1 ∧
    ((∀ nu : ℝ, 0 < nu →
      0 ≤ Radiating.Bnu (Radiating.init 1 1 0 0 1) nu) ∧
    ∃ nup : ℝ, 2.82 * (k_B * 1 / h) < nup ∧ nup < 2.83 * (k_B * 1 / h) ∧
      StrictMonoOn (Radiating.Bnu (Radiating.init 1 1 0 0 1))
        (Set.Ioc 0 nup) ∧
      StrictAntiOn (Radiating.Bnu (Radiating.init 1 1 0 0 1))
        (Set.Ici nup) ∧
      (∀ nu : ℝ, 0 < nu → nu ≠ nup →
        Radiating.Bnu (Radiating.init 1 1 0 0 1) nu <
          Radiating.Bnu (Radiating.init 1 1 0 0 1) nup)) :=
  ⟨by norm_num, C7_planck_single_peak 1 1 0 0 1 (by norm_num)⟩
